import Mathlib

/-!
Verification development for the JSON template engine of
`agents/template_engine_agent.py`.

The embedding models:
- JSON values (`Json`), with numbers restricted to integers (the repository's
  examples and templates only use integer numbers; `float` handling of the
  Python `json` module is outside the model, so the embedded parser fails on
  fraction/exponent forms instead of producing a float),
- `json.dumps(..., ensure_ascii=False)` (`dumps`),
- `json.loads` (`loads`), as a fuel-based recursive-descent parser mirroring
  the stock `json.scanner`/`json.decoder` behaviour on the modelled fragment
  (strings with escapes, integers, arrays, objects with last-wins duplicate
  keys, the four JSON whitespace characters between tokens),
- the placeholder scanner `PLACEHOLDER_PATTERN.finditer` (`findMatches`),
  with regex whitespace `\s` modelled by the ASCII whitespace characters,
- `_lookup_context` (`lookupContext`),
- `render_template` (`render_template`), returning `none` where the Python
  function raises a parse failure.

Strings are represented as `List Char` throughout (Python `str` indexing is
by code point, matching `List Char` positions).
-/

/-- JSON values as produced by `json.loads` and consumed by `json.dumps`.
Object fields keep insertion order, as Python dicts do. -/
inductive Json where
  | null : Json
  | bool (b : Bool) : Json
  | num (n : Int) : Json
  | str (s : List Char) : Json
  | arr (xs : List Json) : Json
  | obj (fields : List (List Char × Json)) : Json

mutual

/-- Structural size of a `Json` value, used as an induction measure. -/
def jsize : Json → Nat
  | Json.null => 1
  | Json.bool _ => 1
  | Json.num _ => 1
  | Json.str _ => 1
  | Json.arr xs => 1 + jsizeL xs
  | Json.obj fs => 1 + jsizeF fs

def jsizeL : List Json → Nat
  | [] => 0
  | x :: l => 1 + jsize x + jsizeL l

def jsizeF : List (List Char × Json) → Nat
  | [] => 0
  | f :: l => 1 + jsize f.2 + jsizeF l

end

/-- Decimal digit to character, as in Python integer `repr`. -/
def digitChar : Nat → Char
  | 0 => '0'
  | 1 => '1'
  | 2 => '2'
  | 3 => '3'
  | 4 => '4'
  | 5 => '5'
  | 6 => '6'
  | 7 => '7'
  | 8 => '8'
  | _ => '9'

/-- Little-endian decimal digits of `n`, with explicit fuel. -/
def natDigitsRev : Nat → Nat → List Char
  | 0, _ => []
  | fuel + 1, n => if n < 10 then [digitChar n] else digitChar (n % 10) :: natDigitsRev fuel (n / 10)

/-- Decimal representation of a natural number (Python `repr`). -/
def natToChars (n : Nat) : List Char := (natDigitsRev (n + 1) n).reverse

/-- Decimal representation of an integer (Python `repr`, as emitted by
`json.dumps` for `int`). -/
def intToChars (i : Int) : List Char :=
  if i < 0 then '-' :: natToChars i.natAbs else natToChars i.natAbs

/-- Lowercase hexadecimal digit character. -/
def hexDigitChar : Nat → Char
  | 0 => '0'
  | 1 => '1'
  | 2 => '2'
  | 3 => '3'
  | 4 => '4'
  | 5 => '5'
  | 6 => '6'
  | 7 => '7'
  | 8 => '8'
  | 9 => '9'
  | 10 => 'a'
  | 11 => 'b'
  | 12 => 'c'
  | 13 => 'd'
  | 14 => 'e'
  | _ => 'f'

/-- Escape one character as `json.dumps(..., ensure_ascii=False)` does:
backslash, double quote and the control characters below 0x20 are escaped
(with the five short escapes where they exist), everything else passes
through unchanged. -/
def escChar (c : Char) : List Char :=
  if c = '\\' then ['\\', '\\']
  else if c = '"' then ['\\', '"']
  else if c = Char.ofNat 8 then ['\\', 'b']
  else if c = Char.ofNat 9 then ['\\', 't']
  else if c = Char.ofNat 10 then ['\\', 'n']
  else if c = Char.ofNat 12 then ['\\', 'f']
  else if c = Char.ofNat 13 then ['\\', 'r']
  else if c.toNat < 32 then ['\\', 'u', '0', '0', hexDigitChar (c.toNat / 16), hexDigitChar (c.toNat % 16)]
  else [c]

/-- Body of a JSON string literal for `s` (escaped, without the outer
quotes). -/
def escapeString : List Char → List Char
  | [] => []
  | c :: s => escChar c ++ escapeString s

/-- Item separator used by `json.dumps` between array items and object
members (the default separator is a comma followed by a space). -/
def sepIf : List α → List Char
  | [] => []
  | _ :: _ => [',', ' ']

mutual

/-- Serialization `json.dumps(value, ensure_ascii=False)` with the default
separators. -/
def dumps : Json → List Char
  | Json.null => ['n', 'u', 'l', 'l']
  | Json.bool true => ['t', 'r', 'u', 'e']
  | Json.bool false => ['f', 'a', 'l', 's', 'e']
  | Json.num n => intToChars n
  | Json.str s => '"' :: escapeString s ++ ['"']
  | Json.arr xs => '[' :: dumpsItems xs ++ [']']
  | Json.obj fs => '{' :: dumpsFields fs ++ ['}']

def dumpsItems : List Json → List Char
  | [] => []
  | x :: l => dumps x ++ sepIf l ++ dumpsItems l

def dumpsFields : List (List Char × Json) → List Char
  | [] => []
  | f :: l => ('"' :: escapeString f.1 ++ '"' :: ':' :: ' ' :: dumps f.2) ++ sepIf l ++ dumpsFields l

end

/-- The four JSON inter-token whitespace characters of `json.decoder`. -/
def isJsonWs (c : Char) : Bool := c = ' ' || c = '\t' || c = '\n' || c = '\r'

/-- Skip inter-token whitespace. -/
def skipJWs (cs : List Char) : List Char := cs.dropWhile isJsonWs

/-- ASCII decimal digit test. -/
def isDigitC (c : Char) : Bool := 48 ≤ c.toNat && c.toNat ≤ 57

/-- Value of an ASCII decimal digit. -/
def digitVal (c : Char) : Nat := c.toNat - 48

/-- Consume a maximal run of decimal digits, folding them onto `acc`. -/
def parseDigitsLoop : Nat → List Char → Nat × List Char
  | acc, [] => (acc, [])
  | acc, c :: cs => if isDigitC c then parseDigitsLoop (acc * 10 + digitVal c) cs else (acc, c :: cs)

/-- After an integer literal, a digit means a rejected leading zero and a
dot or exponent means a float, which is outside the modelled fragment; in
all such cases the embedded parser fails (the Python decoder also fails on
the leading-zero forms, one enclosing grammar level later). -/
def numEndOk : List Char → Bool
  | [] => true
  | c :: _ => !(isDigitC c || c = '.' || c = 'e' || c = 'E')

/-- Parse an unsigned JSON integer: a single `0`, or a nonzero digit
followed by more digits. -/
def parseUInt : List Char → Option (Nat × List Char)
  | [] => none
  | c :: cs =>
    if c = '0' then
      if numEndOk cs then some (0, cs) else none
    else if isDigitC c then
      let r := parseDigitsLoop (digitVal c) cs
      if numEndOk r.2 then some r else none
    else none

/-- Parse a JSON number (integer fragment) with optional leading minus. -/
def parseNumber : List Char → Option (Json × List Char)
  | [] => none
  | c :: cs =>
    if c = '-' then (parseUInt cs).map (fun r => (Json.num (-(r.1 : Int)), r.2))
    else (parseUInt (c :: cs)).map (fun r => (Json.num (r.1 : Int), r.2))

/-- Hexadecimal digit test (both cases), as accepted in `\uXXXX` escapes. -/
def isHexDigit (c : Char) : Bool :=
  (48 ≤ c.toNat && c.toNat ≤ 57) || (97 ≤ c.toNat && c.toNat ≤ 102) || (65 ≤ c.toNat && c.toNat ≤ 70)

/-- Value of a hexadecimal digit. -/
def hexVal (c : Char) : Nat :=
  if c.toNat ≤ 57 then c.toNat - 48 else if 97 ≤ c.toNat then c.toNat - 87 else c.toNat - 55

/-- The single-character string escapes of the JSON decoder. -/
def simpleEsc (e : Char) : Option Char :=
  if e = '"' then some '"'
  else if e = '\\' then some '\\'
  else if e = '/' then some '/'
  else if e = 'b' then some (Char.ofNat 8)
  else if e = 'f' then some (Char.ofNat 12)
  else if e = 'n' then some '\n'
  else if e = 'r' then some '\r'
  else if e = 't' then some '\t'
  else none

/-- Parse the body of a JSON string literal after its opening quote, in
strict mode: raw control characters are rejected, escapes are decoded.
Surrogate code points in `\uXXXX` escapes are outside the modelled
fragment (Lean characters are Unicode scalar values) and fail. -/
def parseStr : Nat → List Char → List Char → Option (List Char × List Char)
  | 0, _, _ => none
  | _ + 1, [], _ => none
  | fuel + 1, c :: cs, acc =>
    if c = '"' then some (acc.reverse, cs)
    else if c = '\\' then
      match cs with
      | [] => none
      | e :: cs2 =>
        if e = 'u' then
          match cs2 with
          | h1 :: h2 :: h3 :: h4 :: cs3 =>
            if isHexDigit h1 && isHexDigit h2 && isHexDigit h3 && isHexDigit h4 then
              let code := ((hexVal h1 * 16 + hexVal h2) * 16 + hexVal h3) * 16 + hexVal h4
              if 55296 ≤ code && code < 57344 then none
              else parseStr fuel cs3 (Char.ofNat code :: acc)
            else none
          | _ => none
        else
          match simpleEsc e with
          | some d => parseStr fuel cs2 (d :: acc)
          | none => none
    else if c.toNat < 32 then none
    else parseStr fuel cs (c :: acc)

/-- Insert a key into an ordered field list with Python dict semantics:
an existing key keeps its position and gets the new value, a new key is
appended (so duplicate keys in an object literal are last-wins). -/
def objUpd : List (List Char × Json) → List Char → Json → List (List Char × Json)
  | [], k, v => [(k, v)]
  | f :: l, k, v => if f.1 = k then (k, v) :: l else f :: objUpd l k v

mutual

/-- One value of the JSON grammar, dispatching on the first character as
the Python scanner does (string, object, array, the three keywords, then
number). -/
def parseVal : Nat → List Char → Option (Json × List Char)
  | 0, _ => none
  | fuel + 1, cs =>
    match cs with
    | [] => none
    | c :: cs1 =>
      if c = '"' then (parseStr (cs1.length + 1) cs1 []).map (fun r => (Json.str r.1, r.2))
      else if c = '{' then
        match skipJWs cs1 with
        | [] => none
        | d :: cs2 =>
          if d = '}' then some (Json.obj [], cs2)
          else if d = '"' then parseObjLoop fuel cs2 []
          else none
      else if c = '[' then
        match skipJWs cs1 with
        | [] => none
        | d :: cs2 =>
          if d = ']' then some (Json.arr [], cs2)
          else parseArrLoop fuel (d :: cs2) []
      else if c = 'n' && cs1.take 3 = ['u', 'l', 'l'] then some (Json.null, cs1.drop 3)
      else if c = 't' && cs1.take 3 = ['r', 'u', 'e'] then some (Json.bool true, cs1.drop 3)
      else if c = 'f' && cs1.take 4 = ['a', 'l', 's', 'e'] then some (Json.bool false, cs1.drop 4)
      else parseNumber (c :: cs1)

/-- Members of an object literal; entered with the cursor just past the
opening quote of a key. -/
def parseObjLoop : Nat → List Char → List (List Char × Json) → Option (Json × List Char)
  | 0, _, _ => none
  | fuel + 1, cs, acc =>
    match parseStr (cs.length + 1) cs [] with
    | none => none
    | some (k, cs1) =>
      match skipJWs cs1 with
      | [] => none
      | d :: cs2 =>
        if d = ':' then
          match parseVal fuel (skipJWs cs2) with
          | none => none
          | some (v, cs3) =>
            match skipJWs cs3 with
            | [] => none
            | d2 :: cs4 =>
              if d2 = '}' then some (Json.obj (objUpd acc k v), cs4)
              else if d2 = ',' then
                match skipJWs cs4 with
                | [] => none
                | d3 :: cs5 =>
                  if d3 = '"' then parseObjLoop fuel cs5 (objUpd acc k v) else none
              else none
        else none

/-- Items of an array literal; entered with the cursor at the first item. -/
def parseArrLoop : Nat → List Char → List Json → Option (Json × List Char)
  | 0, _, _ => none
  | fuel + 1, cs, acc =>
    match parseVal fuel cs with
    | none => none
    | some (v, cs1) =>
      match skipJWs cs1 with
      | [] => none
      | d :: cs2 =>
        if d = ']' then some (Json.arr (acc ++ [v]), cs2)
        else if d = ',' then parseArrLoop fuel (skipJWs cs2) (acc ++ [v])
        else none

end

/-- Parsing `json.loads`: skip leading whitespace, parse one value, skip trailing
whitespace, and require the input to be exhausted. The fuel bound of twice
the length plus a constant dominates the recursion depth of any parse of
the input. -/
def loads (cs : List Char) : Option Json :=
  match parseVal (2 * cs.length + 4) (skipJWs cs) with
  | none => none
  | some (v, rest) => if skipJWs rest = [] then some v else none

/-- Whitespace as matched by the regex class inside `PLACEHOLDER_PATTERN`
(modelled by the ASCII whitespace characters). -/
def isWsRe (c : Char) : Bool :=
  c = ' ' || c = '\t' || c = '\n' || c = '\r' || c = Char.ofNat 11 || c = Char.ofNat 12

/-- The placeholder key character class of `PLACEHOLDER_PATTERN`. -/
def isKeyChar (c : Char) : Bool :=
  (97 ≤ c.toNat && c.toNat ≤ 122) || (65 ≤ c.toNat && c.toNat ≤ 90) ||
    (48 ≤ c.toNat && c.toNat ≤ 57) || c = '_' || c = '.'

/-- Try to match `PLACEHOLDER_PATTERN` at the head of `cs`: two opening
braces, optional whitespace, a nonempty run of key characters, optional
whitespace, two closing braces. Returns the match length and the captured
key. The whitespace and key runs are maximal, which for this pattern is
exactly the backtracking regex semantics because the three character
classes involved are pairwise disjoint and contain no brace. -/
def matchAtList : List Char → Option (Nat × List Char)
  | c1 :: c2 :: cs =>
    if c1 = '{' && c2 = '{' then
      let w1 := cs.takeWhile isWsRe
      let r1 := cs.dropWhile isWsRe
      let key := r1.takeWhile isKeyChar
      let r2 := r1.dropWhile isKeyChar
      if key = [] then none
      else
        let w2 := r2.takeWhile isWsRe
        let r3 := r2.dropWhile isWsRe
        if r3.take 2 = ['}', '}'] then some (w1.length + key.length + w2.length + 4, key)
        else none
    else none
  | _ => none

/-- Scan `cs` (whose first character sits at absolute offset `i`) for
pattern matches, left to right and non-overlapping: on a match, resume
immediately after it; otherwise advance one character, as `finditer`
does. -/
def scanTpl : Nat → Nat → List Char → List (Nat × Nat × List Char)
  | 0, _, _ => []
  | fuel + 1, i, cs =>
    match matchAtList cs with
    | some (len, key) => (i, i + len, key) :: scanTpl fuel (i + len) (cs.drop len)
    | none =>
      match cs with
      | [] => []
      | _ :: cs1 => scanTpl fuel (i + 1) cs1

/-- All matches of `PLACEHOLDER_PATTERN` in the template, as
(start, end, key) triples in left-to-right order. -/
def findMatches (tpl : List Char) : List (Nat × Nat × List Char) := scanTpl (tpl.length + 1) 0 tpl

/-- Split a key on every dot, as Python `str.split` with a separator does
(adjacent dots and boundary dots yield empty segments). -/
def splitDots : List Char → List (List Char)
  | [] => [[]]
  | c :: cs =>
    if c = '.' then [] :: splitDots cs
    else
      match splitDots cs with
      | [] => [[c]]
      | p :: ps => (c :: p) :: ps

/-- Field access on an object's ordered field list (`dict.get`). -/
def getField : List (List Char × Json) → List Char → Option Json
  | [], _ => none
  | f :: l, k => if f.1 = k then some f.2 else getField l k

/-- Python `value is None`, i.e. the JSON null test applied after each
lookup step. -/
def isNullJ : Json → Bool
  | Json.null => true
  | _ => false

/-- The loop of `_lookup_context`: walk the split key segment by segment;
a non-dict node, an absent key, or an explicit null all return `None`. -/
def lookupGo : List (List Char) → Json → Option Json
  | [], cur => some cur
  | p :: ps, cur =>
    match cur with
    | Json.obj fs =>
      match getField fs p with
      | none => none
      | some v => if isNullJ v then none else lookupGo ps v
    | _ => none

/-- Nested lookup via dot notation, modelling `_lookup_context`. -/
def lookupContext (ctx : Json) (key : List Char) : Option Json := lookupGo (splitDots key) ctx

/-- The character immediately before offset `i` of the template, if any
(Python computes the last character of the prefix). -/
def charBefore (tpl : List Char) (i : Nat) : Option Char := (tpl.take i).getLast?

/-- The character at offset `i` of the template, if any (Python computes
the first character of the suffix). -/
def charAfter (tpl : List Char) (i : Nat) : Option Char := (tpl.drop i).head?

/-- Quoting detection of `render_template`: the placeholder spanning
`[s, e)` counts as inside JSON string quotes exactly when the characters
bordering the match on both sides are double quotes. -/
def insideQuotes (tpl : List Char) (s e : Nat) : Bool :=
  charBefore tpl s == some '"' && charAfter tpl e == some '"'

/-- Strip one pair of outer double quotes when present (the
`json_prim[1:-1]` step of `render_template`). -/
def stripOuter (cs : List Char) : List Char :=
  if 2 ≤ cs.length && cs.head? == some '"' && cs.getLast? == some '"' then (cs.drop 1).dropLast
  else cs

/-- Python `isinstance(value, (list, dict))`. -/
def isComposite : Json → Bool
  | Json.arr _ => true
  | Json.obj _ => true
  | _ => false

/-- The text substituted at one placeholder, given its quoting context and
the looked-up value — the body of the match loop of `render_template`:
missing values yield an empty string (quoted) or the text `null`
(unquoted); composites are always dumped as JSON literals; present
primitives are dumped, with outer quotes stripped in quoted position. -/
def renderValue (insideQ : Bool) (v : Option Json) : List Char :=
  match v with
  | none => if insideQ then [] else ['n', 'u', 'l', 'l']
  | some v =>
    if isComposite v then dumps v
    else if insideQ then stripOuter (dumps v) else dumps v

/-- The fragment-accumulation loop of `render_template`: for each match,
emit the literal text since the previous match end, then the substituted
text; after the last match, emit the template tail. -/
def assembleParts (tpl : List Char) (ctx : Json) : List (Nat × Nat × List Char) → Nat → List Char
  | [], lastIdx => tpl.drop lastIdx
  | (s, e, key) :: ms, lastIdx =>
    (tpl.drop lastIdx).take (s - lastIdx)
      ++ renderValue (insideQuotes tpl s e) (lookupContext ctx key)
      ++ assembleParts tpl ctx ms e

/-- The assembled (filled) text of `render_template`, before parsing. -/
def assemble (tpl : List Char) (ctx : Json) : List Char := assembleParts tpl ctx (findMatches tpl) 0

/-- The renderer `render_template`: substitute all placeholders, then parse
the assembled text as JSON. Here `none` models the raised parse failure. -/
def render_template (tpl : List Char) (ctx : Json) : Option Json := loads (assemble tpl ctx)

/-- Membership of a key in an ordered field list. -/
def keyMem (k : List Char) : List (List Char × Json) → Bool
  | [] => false
  | f :: l => f.1 = k || keyMem k l

/-- All keys of the field list are pairwise distinct (Python dicts cannot
hold duplicate keys). -/
def keysNodup : List (List Char × Json) → Bool
  | [] => true
  | f :: l => !keyMem f.1 l && keysNodup l

mutual

/-- Wellformedness of a `Json` value as an image of a Python value: every
object node has pairwise distinct keys. -/
def jwf : Json → Bool
  | Json.arr xs => jwfL xs
  | Json.obj fs => keysNodup fs && jwfF fs
  | _ => true

def jwfL : List Json → Bool
  | [] => true
  | x :: l => jwf x && jwfL l

def jwfF : List (List Char × Json) → Bool
  | [] => true
  | f :: l => jwf f.2 && jwfF l

end

/-- No key of `fs` occurs in `acc`. -/
def keysDisjoint (acc fs : List (List Char × Json)) : Prop :=
  ∀ f ∈ fs, keyMem f.1 acc = false

/-- The serialized members of a nonempty object, as seen by the member loop
of the object parser, i.e. starting just past the opening quote of the
first key. -/
def fieldsRest : List (List Char × Json) → List Char
  | [] => []
  | f :: l => escapeString f.1 ++ '"' :: ':' :: ' ' :: (dumps f.2 ++ sepIf l ++ dumpsFields l)

/-- Declarative reading of `PLACEHOLDER_PATTERN` at the head of `cs`: two
opening braces, a whitespace run, a nonempty run of characters from the
key class, a whitespace run, two closing braces; `len` is the number of
characters consumed and `key` the captured group. -/
def SpecMatch (cs : List Char) (len : Nat) (key : List Char) : Prop :=
  ∃ w1 w2 rest, cs = '{' :: '{' :: (w1 ++ key ++ w2 ++ '}' :: '}' :: rest)
    ∧ (∀ c ∈ w1, isWsRe c = true) ∧ (∀ c ∈ w2, isWsRe c = true)
    ∧ key ≠ [] ∧ (∀ c ∈ key, isKeyChar c = true)
    ∧ len = w1.length + key.length + w2.length + 4

/-- One failing step of the dotted-path walk: the current node is not a
map, or the key is absent, or the key is present with value null. -/
def badStep (cur : Json) (p : List Char) : Prop :=
  (∀ fs, cur ≠ Json.obj fs)
    ∨ (∃ fs, cur = Json.obj fs ∧ (getField fs p = none ∨ getField fs p = some Json.null))

/-! Concrete fixtures used by the claims (braces in template text are
written with hexadecimal escapes). -/

def tplC1 : List Char :=
  ("\x7b\"name\": \"\x7b\x7bproduct.name\x7d\x7d\", \"tags\": \x7b\x7bproduct.tags\x7d\x7d, \"missing\": \"\x7b\x7bx.y\x7d\x7d\"\x7d").toList

def ctxC1 : Json :=
  Json.obj [(("product").toList, Json.obj
    [(("name").toList, Json.str (("Glow").toList)),
     (("tags").toList, Json.arr [Json.str ['a'], Json.str ['b']])])]

def outC1 : Json :=
  Json.obj [(("name").toList, Json.str (("Glow").toList)),
    (("tags").toList, Json.arr [Json.str ['a'], Json.str ['b']]),
    (("missing").toList, Json.str [])]

def tplC2 : List Char := ("\x7b\"tags\": \"\x7b\x7bproduct.tags\x7d\x7d\"\x7d").toList

def assembledC2 : List Char := ("\x7b\"tags\": \"[\"a\", \"b\"]\"\x7d").toList

def tplC2b : List Char := ("\x7b\"t\": \"\x7b\x7bx\x7d\x7d\"\x7d").toList

def ctxC2b : Json := Json.obj [(['x'], Json.arr [])]

def outC2b : Json := Json.obj [(['t'], Json.str ['[', ']'])]

def ctxC5 : Json := Json.obj [(['a'], Json.obj [(['b'], Json.obj [(['c'], Json.num 42)])])]

def tplC5a : List Char := ("\x7b\x7ba.b.c\x7d\x7d").toList

def tplC5b : List Char := ("\"\x7b\x7ba.b.c\x7d\x7d\"").toList

def tplC6 : List Char := ("\x7b\"k\": \"\x7b\x7ba-b\x7d\x7d\"\x7d").toList

def outC6 : Json := Json.obj [(['k'], Json.str (("\x7b\x7ba-b\x7d\x7d").toList))]

def tplC9 : List Char := ("\x7b\"v\": \"\x7b\x7bx\x7d\x7d\"\x7d").toList

def ctxC9 : Json :=
  Json.obj [(['x'], Json.str (("\x7b\x7by\x7d\x7d").toList)), (['y'], Json.str (("secret").toList))]

def ctxC9b : Json :=
  Json.obj [(['x'], Json.str (("\x7b\x7by\x7d\x7d").toList)), (['y'], Json.str (("other").toList))]

def outC9 : Json := Json.obj [(['v'], Json.str (("\x7b\x7by\x7d\x7d").toList))]

def ctxC10 : Json := Json.obj [(['f'], Json.bool false), (['z'], Json.num 0), (['e'], Json.str [])]

/-- C1: the end-to-end example renders as claimed: the quoted present
string substitutes without doubled quotes, the unquoted composite becomes
a JSON array preserving element order, and the missing key in a quoted
slot becomes the empty string. -/
theorem c1_end_to_end : render_template tplC1 ctxC1 = some outC1 := by rfl

/-- C2 counterexample: a composite (the empty list) substituted into a
string-quoted placeholder position nevertheless assembles to valid JSON,
and render_template returns a value instead of failing — refuting the
claim's universal statement. The conjuncts exhibit the recognized match,
its quoted position, and the composite value substituted there. -/
theorem c2_claim_false :
    findMatches tplC2b = [(7, 12, ['x'])]
      ∧ insideQuotes tplC2b 7 12 = true
      ∧ lookupContext ctxC2b ['x'] = some (Json.arr [])
      ∧ isComposite (Json.arr []) = true
      ∧ render_template tplC2b ctxC2b = some outC2b :=
  ⟨rfl, rfl, rfl, rfl, rfl⟩

/-- C2 amended: the particular failure example of the claim does hold: the
template with product.tags substituted into a quoted slot assembles to the
displayed non-JSON text and render_template fails. -/
theorem c2_particular_failure :
    assemble tplC2 ctxC1 = assembledC2 ∧ render_template tplC2 ctxC1 = none :=
  ⟨rfl, rfl⟩

/-- C8: render_template is deterministic: two runs on identical inputs
produce the same assembled text and the same parsed outcome. In the
embedding the renderer is a pure function, which is exactly the source
situation: the Python function reads only its arguments and locals. -/
theorem c8_deterministic (tpl : List Char) (ctx : Json) (t1 t2 : List Char)
    (r1 r2 : Option Json) (h1 : assemble tpl ctx = t1) (h2 : assemble tpl ctx = t2)
    (h3 : render_template tpl ctx = r1) (h4 : render_template tpl ctx = r2) :
    t1 = t2 ∧ r1 = r2 := by
  subst h1; subst h2; subst h3; subst h4; exact ⟨rfl, rfl⟩

/-- C8 witness: determinism instantiated on the end-to-end example. -/
theorem c8_deterministic_witness :
    assemble tplC1 ctxC1 = assemble tplC1 ctxC1
      ∧ render_template tplC1 ctxC1 = render_template tplC1 ctxC1 :=
  c8_deterministic tplC1 ctxC1 _ _ _ _ rfl rfl rfl rfl

/-- C10: presence is decided by the is-null test, not truthiness: a path
resolving to false, 0 or the empty string is present, so the unquoted
substitution is the corresponding JSON literal (never the text null) and
the quoted substitution follows the present-scalar rule. -/
theorem c10_falsy_present (ctx : Json) (key : List Char) :
    (lookupContext ctx key = some (Json.bool false) →
      lookupContext ctx key ≠ none
        ∧ renderValue false (lookupContext ctx key) = ['f', 'a', 'l', 's', 'e']
        ∧ renderValue true (lookupContext ctx key) = ['f', 'a', 'l', 's', 'e'])
    ∧ (lookupContext ctx key = some (Json.num 0) →
      lookupContext ctx key ≠ none
        ∧ renderValue false (lookupContext ctx key) = ['0']
        ∧ renderValue true (lookupContext ctx key) = ['0'])
    ∧ (lookupContext ctx key = some (Json.str []) →
      lookupContext ctx key ≠ none
        ∧ renderValue false (lookupContext ctx key) = ['"', '"']
        ∧ renderValue true (lookupContext ctx key) = []) := by
  refine ⟨fun h => ?_, fun h => ?_, fun h => ?_⟩ <;>
    rw [h] <;> exact ⟨by simp, rfl, rfl⟩

/-- C10 witness: a context binding keys to false, 0 and the empty string,
on which all three lookups are present and substitute as claimed. -/
theorem c10_falsy_present_witness :
    (lookupContext ctxC10 ['f'] ≠ none
        ∧ renderValue false (lookupContext ctxC10 ['f']) = ['f', 'a', 'l', 's', 'e']
        ∧ renderValue true (lookupContext ctxC10 ['f']) = ['f', 'a', 'l', 's', 'e'])
      ∧ (lookupContext ctxC10 ['z'] ≠ none
        ∧ renderValue false (lookupContext ctxC10 ['z']) = ['0']
        ∧ renderValue true (lookupContext ctxC10 ['z']) = ['0'])
      ∧ (lookupContext ctxC10 ['e'] ≠ none
        ∧ renderValue false (lookupContext ctxC10 ['e']) = ['"', '"']
        ∧ renderValue true (lookupContext ctxC10 ['e']) = []) :=
  ⟨(c10_falsy_present ctxC10 ['f']).1 rfl,
   (c10_falsy_present ctxC10 ['z']).2.1 rfl,
   (c10_falsy_present ctxC10 ['e']).2.2 rfl⟩

lemma headq_drop (n : Nat) (l : List Char) : (l.drop n).head? = l[n]? := by
  induction n generalizing l with
  | zero => cases l <;> simp
  | succ n ih =>
    cases l with
    | nil => rfl
    | cons c t => simp [ih t]

/-- C4: a placeholder spanning offsets `[s, e)` is classified string-quoted
exactly when the single character at `s - 1` and the single character at
`e` are both double quotes; at a template boundary (no such character) the
classification is negative, and nothing but these two characters enters
the decision. -/
theorem c4_quoted_iff_bordering_quotes (tpl : List Char) (s e : Nat) (hs : s ≤ tpl.length) :
    insideQuotes tpl s e = true ↔ ((s ≠ 0 ∧ tpl[s - 1]? = some '"') ∧ tpl[e]? = some '"') := by
  unfold insideQuotes charBefore charAfter
  rw [headq_drop]
  simp only [Bool.and_eq_true, beq_iff_eq]
  constructor
  · rintro ⟨h1, h2⟩
    refine ⟨⟨?_, ?_⟩, h2⟩
    · rintro rfl; simp at h1
    · cases s with
      | zero => simp at h1
      | succ k =>
        rw [List.getLast?_eq_getElem?, List.length_take] at h1
        have hmin : min (k + 1) tpl.length = k + 1 := by omega
        rw [hmin, List.getElem?_take_of_lt (by omega)] at h1
        simpa using h1
  · rintro ⟨⟨hne, h1⟩, h2⟩
    refine ⟨?_, h2⟩
    cases s with
    | zero => exact absurd rfl hne
    | succ k =>
      rw [List.getLast?_eq_getElem?, List.length_take]
      have hmin : min (k + 1) tpl.length = k + 1 := by omega
      rw [hmin, List.getElem?_take_of_lt (by omega)]
      simpa using h1

/-- C4 witness: the characterization applied to the first placeholder of
the end-to-end example template. -/
theorem c4_quoted_iff_witness :
    10 ≤ tplC1.length
      ∧ (insideQuotes tplC1 10 26 = true ↔
          ((10 ≠ 0 ∧ tplC1[10 - 1]? = some '"') ∧ tplC1[26]? = some '"')) :=
  ⟨by decide, c4_quoted_iff_bordering_quotes tplC1 10 26 (by decide)⟩

lemma digitChar_is_digit : ∀ d : Nat, isDigitC (digitChar d) = true := by
  intro d
  rcases d with _ | _ | _ | _ | _ | _ | _ | _ | _ | m
  all_goals first
  | decide
  | (show isDigitC '9' = true; decide)

lemma digitChar_ne_zero : ∀ d : Nat, 1 ≤ d → digitChar d ≠ '0' := by
  intro d h
  rcases d with _ | _ | _ | _ | _ | _ | _ | _ | _ | m
  · omega
  all_goals first
  | decide
  | (show ('9' : Char) ≠ '0'; decide)

lemma isDigitC_ne_quote (c : Char) (h : isDigitC c = true) : c ≠ '"' := by
  intro hc; rw [hc] at h; exact absurd h (by decide)

lemma natDigitsRev_eq : ∀ (fuel fuel' n : Nat), n < fuel → n < fuel' →
    natDigitsRev fuel n = natDigitsRev fuel' n := by
  intro fuel
  induction fuel with
  | zero => intro fuel' n h _; omega
  | succ fuel ih =>
    intro fuel' n h h'
    cases fuel' with
    | zero => omega
    | succ fuel' =>
      by_cases h10 : n < 10
      · simp [natDigitsRev, h10]
      · have hd : n / 10 < fuel := by omega
        have hd' : n / 10 < fuel' := by omega
        simp only [natDigitsRev, h10, if_false]
        rw [ih fuel' (n / 10) hd hd']

lemma natToChars_lt10 (n : Nat) (h : n < 10) : natToChars n = [digitChar n] := by
  simp [natToChars, natDigitsRev, h]

lemma natToChars_ge10 (n : Nat) (h : 10 ≤ n) :
    natToChars n = natToChars (n / 10) ++ [digitChar (n % 10)] := by
  unfold natToChars
  have h10 : ¬ n < 10 := by omega
  rw [show natDigitsRev (n + 1) n = digitChar (n % 10) :: natDigitsRev n (n / 10) by
    simp [natDigitsRev, h10]]
  rw [natDigitsRev_eq n (n / 10 + 1) (n / 10) (by omega) (by omega)]
  simp

lemma natToChars_head : ∀ n : Nat, ∃ c t, natToChars n = c :: t
    ∧ isDigitC c = true ∧ (1 ≤ n → c ≠ '0') := by
  intro n
  induction n using Nat.strong_induction_on with
  | _ n ih =>
    by_cases h : n < 10
    · exact ⟨digitChar n, [], natToChars_lt10 n h, digitChar_is_digit n,
        fun h1 => digitChar_ne_zero n h1⟩
    · obtain ⟨c, t, hct, hd, hz⟩ := ih (n / 10) (by omega)
      refine ⟨c, t ++ [digitChar (n % 10)], ?_, hd, fun _ => hz (by omega)⟩
      rw [natToChars_ge10 n (by omega), hct]
      simp

lemma natToChars_all_digits : ∀ n c, c ∈ natToChars n → isDigitC c = true := by
  intro n
  induction n using Nat.strong_induction_on with
  | _ n ih =>
    intro c hc
    by_cases h : n < 10
    · rw [natToChars_lt10 n h] at hc
      simp at hc
      rw [hc]; exact digitChar_is_digit n
    · rw [natToChars_ge10 n (by omega)] at hc
      rcases List.mem_append.mp hc with h1 | h2
      · exact ih (n / 10) (by omega) c h1
      · simp at h2
        rw [h2]; exact digitChar_is_digit _

lemma intToChars_head : ∀ i : Int, ∃ c t, intToChars i = c :: t
    ∧ (isDigitC c = true ∨ c = '-') := by
  intro i
  unfold intToChars
  by_cases hi : i < 0
  · exact ⟨'-', natToChars i.natAbs, by simp [hi], Or.inr rfl⟩
  · obtain ⟨c, t, hct, hd, _⟩ := natToChars_head i.natAbs
    exact ⟨c, t, by simp [hi, hct], Or.inl hd⟩

lemma stripOuter_quoted (xs : List Char) : stripOuter ('"' :: xs ++ ['"']) = xs := by
  unfold stripOuter
  rw [if_pos]
  · rw [show ('"' :: xs ++ ['"']).drop 1 = xs ++ ['"'] from rfl]
    exact List.dropLast_concat
  · simp only [Bool.and_eq_true, beq_iff_eq, decide_eq_true_eq]
    refine ⟨⟨by simp, rfl⟩, ?_⟩
    rw [show ('"' :: xs ++ ['"']) = ('"' :: xs) ++ ['"'] from rfl]
    exact List.getLast?_concat _

lemma stripOuter_no_quote (cs : List Char) (h : cs.head? ≠ some '"') : stripOuter cs = cs := by
  unfold stripOuter
  rw [if_neg]
  simp only [Bool.and_eq_true, beq_iff_eq, decide_eq_true_eq]
  rintro ⟨⟨_, h2⟩, _⟩
  exact absurd h2 h

/-- C5: substitution of a present scalar: unquoted, the canonical JSON
literal is substituted; quoted, only the inner content of the canonical
string literal (escaped body for strings, the literal text itself for
numbers and booleans, whose dumps carry no quotes to strip); and the two
concrete renders of the dotted path a.b.c with value 42. -/
theorem c5_present_scalar :
    (∀ v : Json, isComposite v = false → renderValue false (some v) = dumps v)
      ∧ (∀ s : List Char, renderValue true (some (Json.str s)) = escapeString s)
      ∧ (∀ i : Int, renderValue true (some (Json.num i)) = intToChars i)
      ∧ (∀ b : Bool, renderValue true (some (Json.bool b)) = dumps (Json.bool b))
      ∧ render_template tplC5a ctxC5 = some (Json.num 42)
      ∧ render_template tplC5b ctxC5 = some (Json.str ['4', '2']) := by
  refine ⟨?_, ?_, ?_, ?_, rfl, rfl⟩
  · intro v hv
    simp [renderValue, hv]
  · intro s
    show stripOuter (dumps (Json.str s)) = escapeString s
    rw [show dumps (Json.str s) = '"' :: escapeString s ++ ['"'] from rfl]
    exact stripOuter_quoted _
  · intro i
    show stripOuter (intToChars i) = intToChars i
    obtain ⟨c, t, hct, hc⟩ := intToChars_head i
    apply stripOuter_no_quote
    rw [hct]
    rcases hc with hd | hm
    · simpa using isDigitC_ne_quote c hd
    · rw [hm]; simp
  · intro b
    cases b <;> rfl

/-- C5 witness: the unquoted present-scalar rule instantiated at the
number 7. -/
theorem c5_present_scalar_witness :
    renderValue false (some (Json.num 7)) = dumps (Json.num 7) :=
  c5_present_scalar.1 (Json.num 7) rfl

lemma lookupGo_none_iff : ∀ (parts : List (List Char)) (cur : Json),
    lookupGo parts cur = none ↔
      ∃ pre p post c2, parts = pre ++ p :: post
        ∧ lookupGo pre cur = some c2 ∧ badStep c2 p := by
  intro parts
  induction parts with
  | nil =>
    intro cur
    constructor
    · intro h; simp [lookupGo] at h
    · rintro ⟨pre, p, post, c2, habs, _, _⟩
      exact absurd habs (by cases pre <;> simp)
  | cons p0 ps ih =>
    intro cur
    cases cur with
    | obj fs =>
      cases hg : getField fs p0 with
      | none =>
        constructor
        · intro _
          exact ⟨[], p0, ps, Json.obj fs, rfl, rfl, Or.inr ⟨fs, rfl, Or.inl hg⟩⟩
        · intro _
          simp [lookupGo, hg]
      | some v =>
        by_cases hv : isNullJ v = true
        · have hvn : v = Json.null := by
            cases v <;> first | rfl | (exfalso; simp [isNullJ] at hv)
          subst hvn
          constructor
          · intro _
            exact ⟨[], p0, ps, Json.obj fs, rfl, rfl, Or.inr ⟨fs, rfl, Or.inr hg⟩⟩
          · intro _
            simp [lookupGo, hg, isNullJ]
        · have heq : lookupGo (p0 :: ps) (Json.obj fs) = lookupGo ps v := by
            simp [lookupGo, hg, hv]
          rw [heq, ih v]
          constructor
          · rintro ⟨pre, p, post, c2, hsplit, hpre, hbad⟩
            refine ⟨p0 :: pre, p, post, c2, by rw [hsplit]; rfl, ?_, hbad⟩
            simp [lookupGo, hg, hv, hpre]
          · rintro ⟨pre, p, post, c2, hsplit, hpre, hbad⟩
            cases pre with
            | nil =>
              simp [lookupGo] at hpre
              simp at hsplit
              obtain ⟨hp, hpost⟩ := hsplit
              subst hp; subst hpost
              rw [← hpre] at hbad
              rcases hbad with hL | ⟨fs', heq', hor⟩
              · exact absurd rfl (hL fs)
              · cases heq'
                rcases hor with h1 | h2
                · rw [hg] at h1; exact absurd h1 (by simp)
                · rw [hg] at h2
                  have hv2 : v = Json.null := by injection h2
                  rw [hv2] at hv
                  exact absurd rfl hv
            | cons q pre' =>
              simp at hsplit
              obtain ⟨hq, hps⟩ := hsplit
              subst hq
              have hpre' : lookupGo pre' v = some c2 := by
                simpa [lookupGo, hg, hv] using hpre
              exact ⟨pre', p, post, c2, hps, hpre', hbad⟩
    | null =>
      constructor
      · intro _
        exact ⟨[], p0, ps, Json.null, rfl, rfl, Or.inl (fun fs h => by simp at h)⟩
      · intro _; simp [lookupGo]
    | bool b =>
      constructor
      · intro _
        exact ⟨[], p0, ps, Json.bool b, rfl, rfl, Or.inl (fun fs h => by simp at h)⟩
      · intro _; simp [lookupGo]
    | num n =>
      constructor
      · intro _
        exact ⟨[], p0, ps, Json.num n, rfl, rfl, Or.inl (fun fs h => by simp at h)⟩
      · intro _; simp [lookupGo]
    | str s =>
      constructor
      · intro _
        exact ⟨[], p0, ps, Json.str s, rfl, rfl, Or.inl (fun fs h => by simp at h)⟩
      · intro _; simp [lookupGo]
    | arr xs =>
      constructor
      · intro _
        exact ⟨[], p0, ps, Json.arr xs, rfl, rfl, Or.inl (fun fs h => by simp at h)⟩
      · intro _; simp [lookupGo]

/-- C3: the dotted-path walk yields missing exactly when some step of the
segment-by-segment walk hits a non-map node, an absent key, or a null
value; a missing result substitutes the empty string in quoted position
and the literal text null in unquoted position. -/
theorem c3_missing_characterization (ctx : Json) (key : List Char) :
    (lookupContext ctx key = none ↔
        ∃ pre p post cur, splitDots key = pre ++ p :: post
          ∧ lookupGo pre ctx = some cur ∧ badStep cur p)
      ∧ renderValue true none = []
      ∧ renderValue false none = ['n', 'u', 'l', 'l'] :=
  ⟨lookupGo_none_iff (splitDots key) ctx, rfl, rfl⟩

lemma assembleParts_ctx_congr : ∀ (ms : List (Nat × Nat × List Char)) (tpl : List Char)
    (c1 c2 : Json) (lastIdx : Nat),
    (∀ m ∈ ms, lookupContext c1 m.2.2 = lookupContext c2 m.2.2) →
    assembleParts tpl c1 ms lastIdx = assembleParts tpl c2 ms lastIdx := by
  intro ms
  induction ms with
  | nil => intro _ _ _ _ _; rfl
  | cons m ms ih =>
    intro tpl c1 c2 lastIdx h
    obtain ⟨s, e, k⟩ := m
    show (tpl.drop lastIdx).take (s - lastIdx)
        ++ renderValue (insideQuotes tpl s e) (lookupContext c1 k)
        ++ assembleParts tpl c1 ms e = _
    rw [h ⟨s, e, k⟩ (List.mem_cons_self _ _),
      ih tpl c1 c2 e (fun m hm => h m (List.mem_cons_of_mem _ hm))]
    rfl

/-- C9: rendering is a single pass over the original template: the
assembled text depends on the context only through the lookups of the
keys matched in the original template, so placeholder-shaped text inside
a substituted value is never itself resolved; concretely, a context value
containing placeholder syntax for a bound key y is emitted verbatim. -/
theorem c9_single_pass :
    (∀ (tpl : List Char) (c1 c2 : Json),
        (∀ m ∈ findMatches tpl, lookupContext c1 m.2.2 = lookupContext c2 m.2.2) →
        assemble tpl c1 = assemble tpl c2 ∧ render_template tpl c1 = render_template tpl c2)
      ∧ render_template tplC9 ctxC9 = some outC9 := by
  constructor
  · intro tpl c1 c2 h
    have ha : assemble tpl c1 = assemble tpl c2 :=
      assembleParts_ctx_congr _ tpl c1 c2 0 h
    exact ⟨ha, by unfold render_template; rw [ha]⟩
  · rfl

/-- C9 witness: two contexts differing only in the binding of y (which the
template never references, though the substituted value for x contains the
text of a y placeholder) assemble and render identically. -/
theorem c9_single_pass_witness :
    assemble tplC9 ctxC9 = assemble tplC9 ctxC9b
      ∧ render_template tplC9 ctxC9 = render_template tplC9 ctxC9b :=
  c9_single_pass.1 tplC9 ctxC9 ctxC9b (by
    intro m hm
    rw [show findMatches tplC9 = [(7, 12, ['x'])] from rfl] at hm
    simp at hm
    subst hm
    rfl)


lemma takeWhile_dropWhile_app (p : Char → Bool) : ∀ (w t : List Char),
    (∀ c ∈ w, p c = true) → (∀ c, t.head? = some c → p c = false) →
    (w ++ t).takeWhile p = w ∧ (w ++ t).dropWhile p = t := by
  intro w
  induction w with
  | nil =>
    intro t _ ht
    constructor
    · cases t with
      | nil => rfl
      | cons c t' => simp [List.takeWhile_cons, ht c rfl]
    · cases t with
      | nil => rfl
      | cons c t' => simp [List.dropWhile_cons, ht c rfl]
  | cons a w' ih =>
    intro t hw ht
    have ha : p a = true := hw a (List.mem_cons_self _ _)
    obtain ⟨h1, h2⟩ := ih t (fun c hc => hw c (List.mem_cons_of_mem _ hc)) ht
    constructor
    · simp [List.takeWhile_cons, ha, h1]
    · simp [List.dropWhile_cons, ha, h2]

lemma isWsRe_not_key (c : Char) (h : isWsRe c = true) : isKeyChar c = false := by
  simp only [isWsRe, Bool.or_eq_true, decide_eq_true_eq] at h
  rcases h with ((((h | h) | h) | h) | h) | h <;> subst h <;> decide

lemma isKeyChar_not_ws (c : Char) (h : isKeyChar c = true) : isWsRe c = false := by
  cases hw : isWsRe c
  · rfl
  · rw [isWsRe_not_key c hw] at h
    exact absurd h (by simp)

lemma isKeyChar_rbrace : isKeyChar '}' = false := by decide

lemma isWsRe_rbrace : isWsRe '}' = false := by decide

lemma take_two_eq (l : List Char) (a b : Char) (h : l.take 2 = [a, b]) :
    l = a :: b :: l.drop 2 := by
  cases l with
  | nil => simp at h
  | cons x t =>
    cases t with
    | nil => simp at h
    | cons y t2 =>
      simp at h
      obtain ⟨h1, h2⟩ := h
      subst h1; subst h2
      rfl

/-- The phases of a successful pattern match at the head of the input. -/
theorem matchAtList_iff (cs0 : List Char) (len : Nat) (key : List Char) :
    matchAtList cs0 = some (len, key) ↔ SpecMatch cs0 len key := by
  constructor
  · intro h
    match cs0 with
    | [] => simp [matchAtList] at h
    | [c1] => simp [matchAtList] at h
    | c1 :: c2 :: cs =>
      simp only [matchAtList] at h
      by_cases hb : (c1 = '{' && c2 = '{') = true
      case neg => rw [if_neg hb] at h; exact absurd h (by simp)
      rw [if_pos hb] at h
      simp only [Bool.and_eq_true, decide_eq_true_eq] at hb
      obtain ⟨hb1, hb2⟩ := hb
      subst hb1; subst hb2
      by_cases hk : ((cs.dropWhile isWsRe).takeWhile isKeyChar) = []
      · rw [if_pos hk] at h; exact absurd h (by simp)
      · rw [if_neg hk] at h
        by_cases ht : (((cs.dropWhile isWsRe).dropWhile isKeyChar).dropWhile isWsRe).take 2
            = ['}', '}']
        case neg => rw [if_neg ht] at h; exact absurd h (by simp)
        rw [if_pos ht] at h
        simp only [Option.some.injEq, Prod.mk.injEq] at h
        obtain ⟨hlen, hkey⟩ := h
        have hr3 := take_two_eq _ _ _ ht
        refine ⟨cs.takeWhile isWsRe,
          ((cs.dropWhile isWsRe).dropWhile isKeyChar).takeWhile isWsRe,
          (((cs.dropWhile isWsRe).dropWhile isKeyChar).dropWhile isWsRe).drop 2,
          ?_, ?_, ?_, ?_, ?_, ?_⟩
        · have hd1 : cs = cs.takeWhile isWsRe ++ cs.dropWhile isWsRe :=
            (List.takeWhile_append_dropWhile isWsRe cs).symm
          have hd2 : cs.dropWhile isWsRe
              = (cs.dropWhile isWsRe).takeWhile isKeyChar
                ++ (cs.dropWhile isWsRe).dropWhile isKeyChar :=
            (List.takeWhile_append_dropWhile isKeyChar (cs.dropWhile isWsRe)).symm
          have hd3 : (cs.dropWhile isWsRe).dropWhile isKeyChar
              = ((cs.dropWhile isWsRe).dropWhile isKeyChar).takeWhile isWsRe
                ++ ((cs.dropWhile isWsRe).dropWhile isKeyChar).dropWhile isWsRe :=
            (List.takeWhile_append_dropWhile isWsRe
              ((cs.dropWhile isWsRe).dropWhile isKeyChar)).symm
          rw [← hkey]
          conv_lhs => rw [hd1, hd2, hd3, hr3]
          simp [List.append_assoc]
        · exact fun c hc => List.mem_takeWhile_imp hc
        · exact fun c hc => List.mem_takeWhile_imp hc
        · rw [← hkey]; exact hk
        · rw [← hkey]; exact fun c hc => List.mem_takeWhile_imp hc
        · rw [← hlen, ← hkey]
  · rintro ⟨w1, w2, rest, hcs, hw1, hw2, hkne, hkey, hlen⟩
    subst hcs
    have hkhead : ∀ c, (key ++ (w2 ++ '}' :: '}' :: rest)).head? = some c → isWsRe c = false := by
      intro c hc
      cases key with
      | nil => exact absurd rfl hkne
      | cons k0 key' =>
        simp at hc
        subst hc
        exact isKeyChar_not_ws _ (hkey _ (List.mem_cons_self _ _))
    have hw2head : ∀ c, (w2 ++ '}' :: '}' :: rest).head? = some c → isKeyChar c = false := by
      intro c hc
      cases w2 with
      | nil => simp at hc; subst hc; exact isKeyChar_rbrace
      | cons a w2' =>
        simp at hc
        subst hc
        exact isWsRe_not_key _ (hw2 _ (List.mem_cons_self _ _))
    have hbrhead : ∀ c : Char, (('}' : Char) :: '}' :: rest).head? = some c → isWsRe c = false := by
      intro c hc
      simp at hc
      subst hc
      exact isWsRe_rbrace
    obtain ⟨ht1, hd1⟩ := takeWhile_dropWhile_app isWsRe w1 (key ++ (w2 ++ '}' :: '}' :: rest)) hw1 hkhead
    obtain ⟨ht2, hd2⟩ := takeWhile_dropWhile_app isKeyChar key (w2 ++ '}' :: '}' :: rest) hkey hw2head
    obtain ⟨ht3, hd3⟩ := takeWhile_dropWhile_app isWsRe w2 ('}' :: '}' :: rest) hw2 hbrhead
    simp only [matchAtList]
    rw [if_pos (by simp)]
    have hassoc : w1 ++ key ++ w2 ++ '}' :: '}' :: rest
        = w1 ++ (key ++ (w2 ++ '}' :: '}' :: rest)) := by
      simp [List.append_assoc]
    rw [hassoc, ht1, hd1, ht2, hd2, ht3, hd3]
    rw [if_neg hkne]
    rw [if_pos (by simp)]
    rw [hlen]

lemma matchAtList_len_pos (cs : List Char) (len : Nat) (key : List Char)
    (h : matchAtList cs = some (len, key)) : 1 ≤ len := by
  obtain ⟨w1, w2, rest, _, _, _, _, _, hlen⟩ := (matchAtList_iff cs len key).mp h
  omega

lemma matchAtList_len_le (cs : List Char) (len : Nat) (key : List Char)
    (h : matchAtList cs = some (len, key)) : len ≤ cs.length := by
  obtain ⟨w1, w2, rest, hcs, _, _, _, _, hlen⟩ := (matchAtList_iff cs len key).mp h
  rw [hcs]
  simp
  omega

lemma scanTpl_succ_some (fuel i : Nat) (cs : List Char) (len : Nat) (key : List Char)
    (hm : matchAtList cs = some (len, key)) :
    scanTpl (fuel + 1) i cs = (i, i + len, key) :: scanTpl fuel (i + len) (cs.drop len) := by
  simp [scanTpl, hm]

lemma scanTpl_succ_none (fuel i : Nat) (c : Char) (cs1 : List Char)
    (hm : matchAtList (c :: cs1) = none) :
    scanTpl (fuel + 1) i (c :: cs1) = scanTpl fuel (i + 1) cs1 := by
  simp [scanTpl, hm]

lemma scanTpl_nil (fuel i : Nat) : scanTpl fuel i [] = [] := by
  cases fuel with
  | zero => rfl
  | succ fuel => simp [scanTpl, matchAtList]

lemma scanTpl_sound : ∀ (fuel i : Nat) (cs : List Char) (s e : Nat) (k : List Char),
    (s, e, k) ∈ scanTpl fuel i cs →
    i ≤ s ∧ s < e ∧ matchAtList (cs.drop (s - i)) = some (e - s, k) := by
  intro fuel
  induction fuel with
  | zero => intro i cs s e k h; simp [scanTpl] at h
  | succ fuel ih =>
    intro i cs s e k h
    cases hm : matchAtList cs with
    | some r =>
      obtain ⟨len, key⟩ := r
      rw [scanTpl_succ_some fuel i cs len key hm] at h
      rcases List.mem_cons.mp h with hh | ht
      · simp only [Prod.mk.injEq] at hh
        obtain ⟨h1, h2, h3⟩ := hh
        subst h1; subst h2; subst h3
        have := matchAtList_len_pos cs len k hm
        refine ⟨le_refl _, by omega, ?_⟩
        simpa using hm
      · obtain ⟨h1, h2, h3⟩ := ih (i + len) (cs.drop len) s e k ht
        refine ⟨by omega, h2, ?_⟩
        rw [List.drop_drop] at h3
        have hx : len + (s - (i + len)) = s - i := by omega
        rwa [hx] at h3
    | none =>
      cases cs with
      | nil => rw [scanTpl_nil] at h; simp at h
      | cons c cs1 =>
        rw [scanTpl_succ_none fuel i c cs1 hm] at h
        obtain ⟨h1, h2, h3⟩ := ih (i + 1) cs1 s e k h
        refine ⟨by omega, h2, ?_⟩
        have hsi : s - i = (s - (i + 1)) + 1 := by omega
        rw [hsi]
        simpa using h3

lemma scanTpl_chain : ∀ (fuel i : Nat) (cs : List Char),
    List.Chain' (fun a b : Nat × Nat × List Char => a.2.1 ≤ b.1) (scanTpl fuel i cs) := by
  intro fuel
  induction fuel with
  | zero => intro i cs; simp [scanTpl]
  | succ fuel ih =>
    intro i cs
    cases hm : matchAtList cs with
    | some r =>
      obtain ⟨len, key⟩ := r
      rw [scanTpl_succ_some fuel i cs len key hm]
      rw [List.chain'_cons']
      refine ⟨?_, ih (i + len) (cs.drop len)⟩
      intro b hb
      obtain ⟨b1, b2, b3⟩ := b
      have hbmem : (b1, b2, b3) ∈ scanTpl fuel (i + len) (cs.drop len) :=
        List.mem_of_mem_head? hb
      obtain ⟨h1, _, _⟩ := scanTpl_sound fuel (i + len) (cs.drop len) b1 b2 b3 hbmem
      exact h1
    | none =>
      cases cs with
      | nil => rw [scanTpl_nil]; simp
      | cons c cs1 =>
        rw [scanTpl_succ_none fuel i c cs1 hm]
        exact ih (i + 1) cs1

lemma scanTpl_complete : ∀ (fuel i : Nat) (cs : List Char), cs.length < fuel →
    ∀ (p len : Nat) (key : List Char), matchAtList (cs.drop p) = some (len, key) →
    ∃ m ∈ scanTpl fuel i cs, m.1 ≤ i + p ∧ i + p < m.2.1 := by
  intro fuel
  induction fuel with
  | zero => intro i cs h; omega
  | succ fuel ih =>
    intro i cs hlen p len key hp
    cases hm : matchAtList cs with
    | some r =>
      obtain ⟨len0, key0⟩ := r
      by_cases hcase : p < len0
      · refine ⟨(i, i + len0, key0), ?_, by show i ≤ i + p; omega, by show i + p < i + len0; omega⟩
        rw [scanTpl_succ_some fuel i cs len0 key0 hm]
        exact List.mem_cons_self _ _
      · have hlen0pos : 1 ≤ len0 := matchAtList_len_pos _ _ _ hm
        have hlen0le : len0 ≤ cs.length := matchAtList_len_le _ _ _ hm
        have hdrop : (cs.drop len0).drop (p - len0) = cs.drop p := by
          rw [List.drop_drop]
          have hx : len0 + (p - len0) = p := by omega
          rw [hx]
        obtain ⟨m, hmem, hm1, hm2⟩ := ih (i + len0) (cs.drop len0)
          (by simp [List.length_drop]; omega) (p - len0) len key (by rw [hdrop]; exact hp)
        refine ⟨m, ?_, by omega, by omega⟩
        rw [scanTpl_succ_some fuel i cs len0 key0 hm]
        exact List.mem_cons_of_mem _ hmem
    | none =>
      cases p with
      | zero =>
        rw [List.drop_zero] at hp
        rw [hm] at hp
        exact absurd hp (by simp)
      | succ p' =>
        cases cs with
        | nil => simp [matchAtList] at hp
        | cons c cs1 =>
          have hp' : matchAtList (cs1.drop p') = some (len, key) := by simpa using hp
          obtain ⟨m, hmem, h1, h2⟩ := ih (i + 1) cs1
            (by simpa using Nat.lt_of_succ_lt_succ hlen) p' len key hp'
          refine ⟨m, ?_, by omega, by omega⟩
          rw [scanTpl_succ_none fuel i c cs1 hm]
          exact hmem

/-- C6: the scanner recognizes exactly the pattern of two opening braces,
whitespace, a nonempty run of key-class characters, whitespace, two
closing braces: a head match succeeds if and only if the input decomposes
that way; every reported match of a template satisfies the decomposition
at its offset; reported matches are left-to-right and non-overlapping; any
position where the pattern occurs lies inside some reported match; and a
brace token with a character outside the class (a-b) is not recognized,
its text ending up verbatim in the rendered output. -/
theorem c6_scanner_pattern :
    (∀ (cs : List Char) (len : Nat) (key : List Char),
        matchAtList cs = some (len, key) ↔ SpecMatch cs len key)
      ∧ (∀ (tpl : List Char) (s e : Nat) (k : List Char),
          (s, e, k) ∈ findMatches tpl → SpecMatch (tpl.drop s) (e - s) k)
      ∧ (∀ tpl : List Char,
          List.Chain' (fun a b : Nat × Nat × List Char => a.2.1 ≤ b.1) (findMatches tpl))
      ∧ (∀ (tpl : List Char) (p len : Nat) (key : List Char),
          SpecMatch (tpl.drop p) len key → ∃ m ∈ findMatches tpl, m.1 ≤ p ∧ p < m.2.1)
      ∧ render_template tplC6 ctxC5 = some outC6 := by
  refine ⟨matchAtList_iff, ?_, ?_, ?_, rfl⟩
  · intro tpl s e k h
    obtain ⟨_, _, h3⟩ := scanTpl_sound (tpl.length + 1) 0 tpl s e k h
    rw [Nat.sub_zero] at h3
    exact (matchAtList_iff _ _ _).mp h3
  · intro tpl
    exact scanTpl_chain (tpl.length + 1) 0 tpl
  · intro tpl p len key h
    obtain ⟨m, hmem, h1, h2⟩ := scanTpl_complete (tpl.length + 1) 0 tpl (by omega) p len key
      ((matchAtList_iff _ _ _).mpr h)
    exact ⟨m, hmem, by omega, by omega⟩

/-- C6 witness: the pattern occurrence at offset 0 of the unquoted example
template is covered by a reported match. -/
theorem c6_scanner_pattern_witness :
    ∃ m ∈ findMatches tplC5a, m.1 ≤ 0 ∧ 0 < m.2.1 :=
  c6_scanner_pattern.2.2.2.1 tplC5a 0 9 (['a', '.', 'b', '.', 'c'])
    ⟨[], [], [], by decide, by simp, by simp, by decide, by decide, by decide⟩

lemma hexDigitChar_isHex : ∀ d : Nat, d < 16 → isHexDigit (hexDigitChar d) = true := by
  intro d h
  interval_cases d <;> decide

lemma hexVal_hexDigitChar : ∀ d : Nat, d < 16 → hexVal (hexDigitChar d) = d := by
  intro d h
  interval_cases d <;> decide

lemma parseStr_escChar (c : Char) (rest2 acc : List Char) (fuel : Nat) :
    parseStr (fuel + 1) (escChar c ++ rest2) acc = parseStr fuel rest2 (c :: acc) := by
  by_cases h1 : c = '\\'
  · subst h1; rfl
  by_cases h2 : c = '"'
  · subst h2; rfl
  by_cases h3 : c = Char.ofNat 8
  · subst h3; rfl
  by_cases h4 : c = Char.ofNat 9
  · subst h4; rfl
  by_cases h5 : c = Char.ofNat 10
  · subst h5; rfl
  by_cases h6 : c = Char.ofNat 12
  · subst h6; rfl
  by_cases h7 : c = Char.ofNat 13
  · subst h7; rfl
  by_cases h8 : c.toNat < 32
  · have hesc : escChar c
        = ['\\', 'u', '0', '0', hexDigitChar (c.toNat / 16), hexDigitChar (c.toNat % 16)] := by
      simp only [escChar, if_neg h1, if_neg h2, if_neg h3, if_neg h4, if_neg h5, if_neg h6,
        if_neg h7, if_pos h8]
    rw [hesc]
    have hhi := hexDigitChar_isHex (c.toNat / 16) (by omega)
    have hlo := hexDigitChar_isHex (c.toNat % 16) (by omega)
    have hvhi := hexVal_hexDigitChar (c.toNat / 16) (by omega)
    have hvlo := hexVal_hexDigitChar (c.toNat % 16) (by omega)
    have hcode : ((hexVal '0' * 16 + hexVal '0') * 16
          + hexVal (hexDigitChar (c.toNat / 16))) * 16 + hexVal (hexDigitChar (c.toNat % 16))
        = c.toNat := by
      rw [hvhi, hvlo]
      rw [show hexVal '0' = 0 from by decide]
      omega
    show parseStr (fuel + 1)
        ('\\' :: 'u' :: '0' :: '0' :: hexDigitChar (c.toNat / 16)
          :: hexDigitChar (c.toNat % 16) :: rest2) acc = _
    have hs1 : ¬ 55296 ≤ c.toNat := by omega
    have h00 : isHexDigit '0' = true := by decide
    simp only [parseStr]
    simp [hhi, hlo, hcode, hs1, h00]
  · have hesc : escChar c = [c] := by
      simp only [escChar, if_neg h1, if_neg h2, if_neg h3, if_neg h4, if_neg h5, if_neg h6,
        if_neg h7, if_neg h8]
    rw [hesc]
    show parseStr (fuel + 1) (c :: rest2) acc = _
    simp only [parseStr]
    rw [if_neg h2, if_neg h1, if_neg h8]

lemma escChar_length_pos (c : Char) : 1 ≤ (escChar c).length := by
  unfold escChar
  split_ifs <;> simp

lemma escapeString_length : ∀ s : List Char, s.length ≤ (escapeString s).length := by
  intro s
  induction s with
  | nil => simp [escapeString]
  | cons c s' ih =>
    show (c :: s').length ≤ (escChar c ++ escapeString s').length
    have := escChar_length_pos c
    simp only [List.length_cons, List.length_append]
    omega

lemma parseStr_escape : ∀ (s acc rest : List Char) (fuel : Nat), s.length + 1 ≤ fuel →
    parseStr fuel (escapeString s ++ '"' :: rest) acc = some (acc.reverse ++ s, rest) := by
  intro s
  induction s with
  | nil =>
    intro acc rest fuel hf
    cases fuel with
    | zero => omega
    | succ fuel =>
      show parseStr (fuel + 1) ('"' :: rest) acc = _
      simp [parseStr]
  | cons c s' ih =>
    intro acc rest fuel hf
    cases fuel with
    | zero => omega
    | succ fuel =>
      rw [show escapeString (c :: s') ++ '"' :: rest
          = escChar c ++ (escapeString s' ++ '"' :: rest) by
        simp [escapeString, List.append_assoc]]
      rw [parseStr_escChar]
      rw [ih (c :: acc) rest fuel (by simp at hf ⊢; omega)]
      simp

/-- Value of a digit string, folded most-significant first. -/
def foldDigits (acc : Nat) (ds : List Char) : Nat :=
  ds.foldl (fun a c => a * 10 + digitVal c) acc

lemma digitVal_digitChar : ∀ d : Nat, d < 10 → digitVal (digitChar d) = d := by
  intro d h
  interval_cases d <;> decide

lemma parseDigitsLoop_app : ∀ (ds rest : List Char) (acc : Nat),
    (∀ c ∈ ds, isDigitC c = true) → (∀ c, rest.head? = some c → isDigitC c = false) →
    parseDigitsLoop acc (ds ++ rest) = (foldDigits acc ds, rest) := by
  intro ds
  induction ds with
  | nil =>
    intro rest acc _ hr
    cases rest with
    | nil => rfl
    | cons c t => simp [parseDigitsLoop, hr c rfl, foldDigits]
  | cons d ds' ih =>
    intro rest acc hd hr
    have hdd : isDigitC d = true := hd d (List.mem_cons_self _ _)
    rw [List.cons_append]
    rw [show parseDigitsLoop acc (d :: (ds' ++ rest))
        = parseDigitsLoop (acc * 10 + digitVal d) (ds' ++ rest) by
      simp [parseDigitsLoop, hdd]]
    rw [ih rest (acc * 10 + digitVal d) (fun c hc => hd c (List.mem_cons_of_mem _ hc)) hr]
    simp [foldDigits]

lemma foldDigits_natToChars : ∀ (n acc : Nat),
    foldDigits acc (natToChars n) = acc * 10 ^ (natToChars n).length + n := by
  intro n
  induction n using Nat.strong_induction_on with
  | _ n ih =>
    intro acc
    by_cases h : n < 10
    · rw [natToChars_lt10 n h]
      simp [foldDigits, digitVal_digitChar n h]
    · rw [natToChars_ge10 n (by omega)]
      rw [show foldDigits acc (natToChars (n / 10) ++ [digitChar (n % 10)])
          = foldDigits (foldDigits acc (natToChars (n / 10))) [digitChar (n % 10)] by
        simp [foldDigits]]
      rw [ih (n / 10) (by omega) acc]
      have hd10 : digitVal (digitChar (n % 10)) = n % 10 := digitVal_digitChar _ (by omega)
      simp only [foldDigits, List.foldl_cons, List.foldl_nil, hd10]
      rw [List.length_append]
      simp only [List.length_cons, List.length_nil]
      rw [pow_succ]
      have hdm : n / 10 * 10 + n % 10 = n := by omega
      calc (acc * 10 ^ (natToChars (n / 10)).length + n / 10) * 10 + n % 10
          = acc * (10 ^ (natToChars (n / 10)).length * 10) + (n / 10 * 10 + n % 10) := by ring
        _ = acc * (10 ^ (natToChars (n / 10)).length * 10) + n := by rw [hdm]

lemma numEndOk_head (rest : List Char) (hend : numEndOk rest = true) :
    ∀ c, rest.head? = some c → isDigitC c = false := by
  intro c hc
  cases rest with
  | nil => simp at hc
  | cons r t =>
    simp at hc
    subst hc
    simp only [numEndOk, Bool.not_eq_true', Bool.or_eq_false_iff] at hend
    exact hend.1.1.1

lemma parseUInt_natToChars : ∀ (n : Nat) (rest : List Char), numEndOk rest = true →
    parseUInt (natToChars n ++ rest) = some (n, rest) := by
  intro n rest hend
  by_cases h0 : n = 0
  · subst h0
    rw [show natToChars 0 = ['0'] from rfl]
    show parseUInt ('0' :: rest) = _
    simp [parseUInt, hend]
  · obtain ⟨c, t, hct, hcd, hcz⟩ := natToChars_head n
    have hcz' : c ≠ '0' := hcz (by omega)
    have htd : ∀ x ∈ t, isDigitC x = true := by
      intro x hx
      exact natToChars_all_digits n x (by rw [hct]; exact List.mem_cons_of_mem _ hx)
    have hfold : foldDigits (digitVal c) t = n := by
      have h1 : foldDigits 0 (natToChars n) = n := by
        rw [foldDigits_natToChars]; simp
      rw [hct] at h1
      simpa [foldDigits] using h1
    rw [hct, List.cons_append]
    simp only [parseUInt]
    rw [if_neg hcz', if_pos hcd]
    rw [parseDigitsLoop_app t rest (digitVal c) htd (numEndOk_head rest hend)]
    simp [hend, hfold]

lemma parseNumber_intToChars : ∀ (i : Int) (rest : List Char), numEndOk rest = true →
    parseNumber (intToChars i ++ rest) = some (Json.num i, rest) := by
  intro i rest hend
  by_cases hi : i < 0
  · rw [show intToChars i = '-' :: natToChars i.natAbs by simp [intToChars, hi]]
    rw [List.cons_append]
    show Option.map (fun r : Nat × List Char => (Json.num (-(r.1 : Int)), r.2))
        (parseUInt (natToChars i.natAbs ++ rest)) = _
    rw [parseUInt_natToChars _ _ hend]
    have hni : -((i.natAbs : Nat) : Int) = i := by omega
    show some (Json.num (-((i.natAbs : Nat) : Int)), rest) = some (Json.num i, rest)
    rw [hni]
  · rw [show intToChars i = natToChars i.natAbs by simp [intToChars, hi]]
    obtain ⟨c, t, hct, hcd, _⟩ := natToChars_head i.natAbs
    have hcm : ¬ c = '-' := by
      intro hc; rw [hc] at hcd; exact absurd hcd (by decide)
    rw [hct, List.cons_append]
    simp only [parseNumber]
    rw [if_neg hcm]
    rw [← List.cons_append, ← hct]
    rw [parseUInt_natToChars _ _ hend]
    have hni : ((i.natAbs : Nat) : Int) = i := by omega
    simp [hni]

/-- The possible first characters of a serialized JSON value. -/
def isValHead (c : Char) : Bool :=
  c = '"' || c = '{' || c = '[' || c = 'n' || c = 't' || c = 'f' || c = '-' || isDigitC c

lemma intToChars_ne_nil (i : Int) : intToChars i ≠ [] := by
  obtain ⟨c, t, hct, _⟩ := intToChars_head i
  rw [hct]
  simp

lemma dumps_head : ∀ V : Json, ∃ c t, dumps V = c :: t ∧ isValHead c = true := by
  intro V
  cases V with
  | null => exact ⟨'n', _, rfl, by decide⟩
  | bool b =>
    cases b with
    | true => exact ⟨'t', _, rfl, by decide⟩
    | false => exact ⟨'f', _, rfl, by decide⟩
  | num i =>
    obtain ⟨c, t, hct, hc⟩ := intToChars_head i
    refine ⟨c, t, hct, ?_⟩
    rcases hc with hd | hm
    · simp [isValHead, hd]
    · simp [isValHead, hm]
  | str s => exact ⟨'"', _, rfl, by decide⟩
  | arr xs => exact ⟨'[', _, rfl, by decide⟩
  | obj fs => exact ⟨'{', _, rfl, by decide⟩

lemma isDigitC_not_jws (c : Char) (h : isDigitC c = true) : isJsonWs c = false := by
  cases hw : isJsonWs c
  · rfl
  · simp only [isJsonWs, Bool.or_eq_true, decide_eq_true_eq] at hw
    rcases hw with ((hw | hw) | hw) | hw <;> subst hw <;> exact absurd h (by decide)

lemma isValHead_not_ws (c : Char) (h : isValHead c = true) : isJsonWs c = false := by
  simp only [isValHead, Bool.or_eq_true, decide_eq_true_eq] at h
  rcases h with ((((((h | h) | h) | h) | h) | h) | h) | h
  · subst h; decide
  · subst h; decide
  · subst h; decide
  · subst h; decide
  · subst h; decide
  · subst h; decide
  · subst h; decide
  · exact isDigitC_not_jws c h

lemma isValHead_ne (c : Char) (h : isValHead c = true) (d : Char)
    (hd : isValHead d = false) : c ≠ d := by
  intro he
  subst he
  rw [h] at hd
  exact absurd hd (by simp)

lemma skipJWs_dumps (V : Json) (t : List Char) : skipJWs (dumps V ++ t) = dumps V ++ t := by
  obtain ⟨c, cs, hct, hv⟩ := dumps_head V
  rw [hct, List.cons_append]
  simp [skipJWs, List.dropWhile_cons, isValHead_not_ws c hv]

lemma keyMem_append (k : List Char) : ∀ (l1 l2 : List (List Char × Json)),
    keyMem k (l1 ++ l2) = (keyMem k l1 || keyMem k l2) := by
  intro l1
  induction l1 with
  | nil => intro l2; simp [keyMem]
  | cons f l ih =>
    intro l2
    simp [keyMem, ih l2, Bool.or_assoc]

lemma keyMem_false_forall (k : List Char) : ∀ l : List (List Char × Json),
    keyMem k l = false → ∀ g ∈ l, g.1 ≠ k := by
  intro l
  induction l with
  | nil => intro _ g hg; simp at hg
  | cons f l ih =>
    intro h g hg
    simp only [keyMem, Bool.or_eq_false_iff] at h
    rcases List.mem_cons.mp hg with hh | ht
    · subst hh
      simpa using h.1
    · exact ih h.2 g ht

lemma objUpd_not_mem : ∀ (acc : List (List Char × Json)) (k : List Char) (v : Json),
    keyMem k acc = false → objUpd acc k v = acc ++ [(k, v)] := by
  intro acc
  induction acc with
  | nil => intro k v _; rfl
  | cons f l ih =>
    intro k v h
    simp only [keyMem, Bool.or_eq_false_iff] at h
    have hf : ¬ f.1 = k := by simpa using h.1
    simp [objUpd, hf, ih k v h.2]

lemma jsize_pos : ∀ V : Json, 1 ≤ jsize V := by
  intro V
  cases V <;> simp [jsize]

lemma jsizeL_cons (x : Json) (l : List Json) : jsizeL (x :: l) = 1 + jsize x + jsizeL l := by
  simp [jsizeL]

lemma jsizeF_cons (f : List Char × Json) (l : List (List Char × Json)) :
    jsizeF (f :: l) = 1 + jsize f.2 + jsizeF l := by
  simp [jsizeF]

lemma dumpsFields_cons (f : List Char × Json) (l : List (List Char × Json)) :
    dumpsFields (f :: l) = '"' :: fieldsRest (f :: l) := by
  show ('"' :: escapeString f.1 ++ '"' :: ':' :: ' ' :: dumps f.2) ++ sepIf l ++ dumpsFields l = _
  simp [fieldsRest, List.append_assoc]

lemma jsize_le_dumps : ∀ N : Nat,
    (∀ V : Json, jsize V ≤ N → jsize V ≤ (dumps V).length)
      ∧ (∀ l : List Json, jsizeL l ≤ N → jsizeL l ≤ (dumpsItems l).length + 1)
      ∧ (∀ fs : List (List Char × Json), jsizeF fs ≤ N → jsizeF fs ≤ (dumpsFields fs).length + 1) := by
  intro N
  induction N with
  | zero =>
    refine ⟨fun V h => ?_, fun l h => ?_, fun fs h => ?_⟩
    · have := jsize_pos V; omega
    · cases l with
      | nil => simp [jsizeL]
      | cons x l' => rw [jsizeL_cons] at h; have := jsize_pos x; omega
    · cases fs with
      | nil => simp [jsizeF]
      | cons f l' => rw [jsizeF_cons] at h; have := jsize_pos f.2; omega
  | succ N ih =>
    refine ⟨fun V h => ?_, fun l h => ?_, fun fs h => ?_⟩
    · cases V with
      | null => simp [jsize, dumps]
      | bool b => cases b <;> simp [jsize, dumps]
      | num i =>
        have := intToChars_ne_nil i
        have : 1 ≤ (intToChars i).length := by
          cases hc : intToChars i with
          | nil => exact absurd hc this
          | cons c t => simp
        simp only [jsize, dumps]
        omega
      | str s => simp [jsize, dumps]
      | arr xs =>
        simp only [jsize, dumps] at h ⊢
        have hx : jsizeL xs ≤ N := by omega
        have := (ih.2.1) xs hx
        simp only [List.length_cons, List.length_append]
        omega
      | obj fs =>
        simp only [jsize, dumps] at h ⊢
        have hx : jsizeF fs ≤ N := by omega
        have := (ih.2.2) fs hx
        simp only [List.length_cons, List.length_append]
        omega
    · cases l with
      | nil => simp [jsizeL]
      | cons x l' =>
        rw [jsizeL_cons] at h ⊢
        have h1 : jsize x ≤ N := by have := jsize_pos x; omega
        have h2 : jsizeL l' ≤ N := by have := jsize_pos x; omega
        have hx := ih.1 x h1
        have hl := ih.2.1 l' h2
        show 1 + jsize x + jsizeL l' ≤ (dumps x ++ sepIf l' ++ dumpsItems l').length + 1
        cases l' with
        | nil =>
          simp only [jsizeL, sepIf, dumpsItems, List.append_nil] at *
          omega
        | cons y l'' =>
          simp only [sepIf, List.length_append, List.length_cons, List.length_nil] at *
          omega
    · cases fs with
      | nil => simp [jsizeF]
      | cons f l' =>
        rw [jsizeF_cons] at h ⊢
        have h1 : jsize f.2 ≤ N := by have := jsize_pos f.2; omega
        have h2 : jsizeF l' ≤ N := by have := jsize_pos f.2; omega
        have hx := ih.1 f.2 h1
        have hl := ih.2.2 l' h2
        show 1 + jsize f.2 + jsizeF l'
            ≤ (('"' :: escapeString f.1 ++ '"' :: ':' :: ' ' :: dumps f.2) ++ sepIf l'
              ++ dumpsFields l').length + 1
        cases l' with
        | nil =>
          simp only [jsizeF, sepIf, dumpsFields, List.append_nil, List.length_append,
            List.length_cons] at *
          omega
        | cons g l'' =>
          simp only [sepIf, List.length_append, List.length_cons, List.length_nil] at *
          omega

lemma parseVal_str_head (fuel : Nat) (cs1 : List Char) :
    parseVal (fuel + 1) ('"' :: cs1)
      = (parseStr (cs1.length + 1) cs1 []).map (fun r => (Json.str r.1, r.2)) := rfl

lemma parseVal_num_dispatch (fuel : Nat) (c : Char) (cs1 : List Char)
    (hd : isDigitC c = true ∨ c = '-') :
    parseVal (fuel + 1) (c :: cs1) = parseNumber (c :: cs1) := by
  have hne : ∀ d : Char, isDigitC d = false → d ≠ '-' → c ≠ d := by
    intro d h1 h2 he
    subst he
    rcases hd with h | h
    · rw [h1] at h; exact absurd h (by simp)
    · exact h2 h
  simp only [parseVal]
  rw [if_neg (hne '"' (by decide) (by decide)),
    if_neg (hne '{' (by decide) (by decide)),
    if_neg (hne '[' (by decide) (by decide)),
    if_neg (by simp [hne 'n' (by decide) (by decide)]),
    if_neg (by simp [hne 't' (by decide) (by decide)]),
    if_neg (by simp [hne 'f' (by decide) (by decide)])]

lemma parseVal_lbracket (fuel : Nat) (cs1 : List Char) (d : Char) (cs2 : List Char)
    (hskip : skipJWs cs1 = d :: cs2) (hd : d ≠ ']') :
    parseVal (fuel + 1) ('[' :: cs1) = parseArrLoop fuel (d :: cs2) [] := by
  simp only [parseVal]
  rw [if_pos trivial]
  rw [hskip]
  show (if d = ']' then some (Json.arr [], cs2) else parseArrLoop fuel (d :: cs2) []) = _
  rw [if_neg hd]

lemma parseVal_lbrace (fuel : Nat) (cs1 : List Char) (cs2 : List Char)
    (hskip : skipJWs cs1 = '"' :: cs2) :
    parseVal (fuel + 1) ('{' :: cs1) = parseObjLoop fuel cs2 [] := by
  simp only [parseVal]
  rw [if_pos trivial]
  rw [hskip]
  show (if ('"' : Char) = '}' then some (Json.obj [], cs2)
      else if ('"' : Char) = '"' then parseObjLoop fuel cs2 [] else none) = _
  rw [if_neg (by decide), if_pos rfl]

lemma dropWhile_dumps (V : Json) (t : List Char) :
    (dumps V ++ t).dropWhile isJsonWs = dumps V ++ t := skipJWs_dumps V t

lemma parseObjLoop_key (fuel : Nat) (cs : List Char) (acc : List (List Char × Json))
    (k : List Char) (cs1 : List Char)
    (hkey : parseStr (cs.length + 1) cs [] = some (k, cs1)) :
    parseObjLoop (fuel + 1) cs acc
      = match skipJWs cs1 with
        | [] => none
        | d :: cs2 =>
          if d = ':' then
            match parseVal fuel (skipJWs cs2) with
            | none => none
            | some (v, cs3) =>
              match skipJWs cs3 with
              | [] => none
              | d2 :: cs4 =>
                if d2 = '}' then some (Json.obj (objUpd acc k v), cs4)
                else if d2 = ',' then
                  match skipJWs cs4 with
                  | [] => none
                  | d3 :: cs5 =>
                    if d3 = '"' then parseObjLoop fuel cs5 (objUpd acc k v) else none
                else none
          else none := by
  simp only [parseObjLoop]
  rw [hkey]

lemma roundtrip_triple : ∀ N : Nat,
    (∀ (V : Json) (rest : List Char) (fuel : Nat), jsize V ≤ N → jwf V = true →
      numEndOk rest = true → 2 * jsize V ≤ fuel →
      parseVal fuel (dumps V ++ rest) = some (V, rest))
    ∧ (∀ (l acc : List Json) (rest : List Char) (fuel : Nat), jsizeL l ≤ N →
      l ≠ [] → jwfL l = true → 2 * jsizeL l ≤ fuel →
      parseArrLoop fuel (dumpsItems l ++ ']' :: rest) acc = some (Json.arr (acc ++ l), rest))
    ∧ (∀ (fs acc : List (List Char × Json)) (rest : List Char) (fuel : Nat), jsizeF fs ≤ N →
      fs ≠ [] → jwfF fs = true → keysNodup fs = true → keysDisjoint acc fs →
      2 * jsizeF fs ≤ fuel →
      parseObjLoop fuel (fieldsRest fs ++ '}' :: rest) acc = some (Json.obj (acc ++ fs), rest)) := by
  intro N
  induction N with
  | zero =>
    refine ⟨fun V rest fuel hN => ?_, fun l acc rest fuel hN hne => ?_,
      fun fs acc rest fuel hN hne => ?_⟩
    · have := jsize_pos V; omega
    · cases l with
      | nil => exact absurd rfl hne
      | cons x l' => rw [jsizeL_cons] at hN; have := jsize_pos x; omega
    · cases fs with
      | nil => exact absurd rfl hne
      | cons f l' => rw [jsizeF_cons] at hN; have := jsize_pos f.2; omega
  | succ N ih =>
    refine ⟨fun V rest fuel hN hwf hend hfuel => ?_,
      fun l acc rest fuel hN hne hwf hfuel => ?_,
      fun fs acc rest fuel hN hne hwf hnodup hdisj hfuel => ?_⟩
    · -- values
      have hfp : 1 ≤ fuel := by have := jsize_pos V; omega
      obtain ⟨F, rfl⟩ : ∃ F, fuel = F + 1 := ⟨fuel - 1, by omega⟩
      cases V with
      | null => rfl
      | bool b => cases b <;> rfl
      | num i =>
        obtain ⟨c, t, hct, hc⟩ := intToChars_head i
        have hc' : isDigitC c = true ∨ c = '-' := hc
        rw [show dumps (Json.num i) = intToChars i from rfl, hct, List.cons_append,
          parseVal_num_dispatch F c _ hc', ← List.cons_append, ← hct,
          parseNumber_intToChars i rest hend]
      | str s =>
        have hshape : dumps (Json.str s) ++ rest = '"' :: (escapeString s ++ '"' :: rest) := by
          show ('"' :: escapeString s ++ ['"']) ++ rest = _
          simp [List.append_assoc]
        rw [hshape, parseVal_str_head]
        rw [parseStr_escape s [] rest _ (by
          have := escapeString_length s
          simp only [List.length_append, List.length_cons]
          omega)]
        simp
      | arr xs =>
        cases xs with
        | nil => rfl
        | cons x xs' =>
          have hitems : dumpsItems (x :: xs') ++ ']' :: rest
              = dumps x ++ (sepIf xs' ++ (dumpsItems xs' ++ ']' :: rest)) := by
            show (dumps x ++ sepIf xs' ++ dumpsItems xs') ++ ']' :: rest = _
            simp [List.append_assoc]
          have hsh : dumps (Json.arr (x :: xs')) ++ rest
              = '[' :: (dumpsItems (x :: xs') ++ ']' :: rest) := by
            show ('[' :: dumpsItems (x :: xs') ++ [']']) ++ rest = _
            simp [List.append_assoc]
          obtain ⟨c0, t0, hct0, hv0⟩ := dumps_head x
          have hskip : skipJWs (dumpsItems (x :: xs') ++ ']' :: rest)
              = c0 :: (t0 ++ (sepIf xs' ++ (dumpsItems xs' ++ ']' :: rest))) := by
            rw [hitems, skipJWs_dumps, hct0, List.cons_append]
          rw [hsh, parseVal_lbracket F _ c0 _ hskip (isValHead_ne c0 hv0 ']' (by decide))]
          rw [show c0 :: (t0 ++ (sepIf xs' ++ (dumpsItems xs' ++ ']' :: rest)))
              = dumpsItems (x :: xs') ++ ']' :: rest by
            rw [← List.cons_append, ← hct0, ← hitems]]
          simp only [jsize] at hN hfuel
          rw [ih.2.1 (x :: xs') [] rest F (by omega) (by simp)
            (by simpa [jwf] using hwf) (by omega)]
          simp
      | obj fs =>
        cases fs with
        | nil => rfl
        | cons f l =>
          have hsh : dumps (Json.obj (f :: l)) ++ rest
              = '{' :: (dumpsFields (f :: l) ++ '}' :: rest) := by
            show ('{' :: dumpsFields (f :: l) ++ ['}']) ++ rest = _
            simp [List.append_assoc]
          have hskip : skipJWs (dumpsFields (f :: l) ++ '}' :: rest)
              = '"' :: (fieldsRest (f :: l) ++ '}' :: rest) := by
            rw [dumpsFields_cons, List.cons_append]
            show ('"' :: (fieldsRest (f :: l) ++ '}' :: rest)).dropWhile isJsonWs = _
            rw [List.dropWhile_cons, if_neg (by decide)]
          rw [hsh, parseVal_lbrace F _ _ hskip]
          simp only [jsize] at hN hfuel
          simp only [jwf, Bool.and_eq_true] at hwf
          rw [ih.2.2 (f :: l) [] rest F (by omega) (by simp) hwf.2 hwf.1
            (fun g _ => rfl) (by omega)]
          simp
    · -- array members
      cases l with
      | nil => exact absurd rfl hne
      | cons x xs' =>
        rw [jsizeL_cons] at hN hfuel
        have hfp : 1 ≤ fuel := by have := jsize_pos x; omega
        obtain ⟨F, rfl⟩ : ∃ F, fuel = F + 1 := ⟨fuel - 1, by omega⟩
        simp only [jwfL, Bool.and_eq_true] at hwf
        have hitems : dumpsItems (x :: xs') ++ ']' :: rest
            = dumps x ++ (sepIf xs' ++ (dumpsItems xs' ++ ']' :: rest)) := by
          show (dumps x ++ sepIf xs' ++ dumpsItems xs') ++ ']' :: rest = _
          simp [List.append_assoc]
        have hend1 : numEndOk (sepIf xs' ++ (dumpsItems xs' ++ ']' :: rest)) = true := by
          cases xs' <;> rfl
        have hval : parseVal F (dumps x ++ (sepIf xs' ++ (dumpsItems xs' ++ ']' :: rest)))
            = some (x, sepIf xs' ++ (dumpsItems xs' ++ ']' :: rest)) :=
          ih.1 x _ F (by have := jsize_pos x; omega) hwf.1 hend1 (by omega)
        rw [hitems]
        simp only [parseArrLoop]
        rw [hval]
        cases xs' with
        | nil => rfl
        | cons y xs'' =>
          have hskip2 : (dumpsItems (y :: xs'') ++ ']' :: rest).dropWhile isJsonWs
              = dumpsItems (y :: xs'') ++ ']' :: rest := by
            have h2 : dumpsItems (y :: xs'') ++ ']' :: rest
                = dumps y ++ (sepIf xs'' ++ (dumpsItems xs'' ++ ']' :: rest)) := by
              show (dumps y ++ sepIf xs'' ++ dumpsItems xs'') ++ ']' :: rest = _
              simp [List.append_assoc]
            rw [h2]
            exact dropWhile_dumps y _
          show parseArrLoop F (skipJWs (' ' :: (dumpsItems (y :: xs'') ++ ']' :: rest)))
              (acc ++ [x]) = some (Json.arr (acc ++ (x :: y :: xs'')), rest)
          rw [show skipJWs (' ' :: (dumpsItems (y :: xs'') ++ ']' :: rest))
              = dumpsItems (y :: xs'') ++ ']' :: rest by
            simp only [skipJWs, List.dropWhile_cons]
            rw [if_pos (by decide)]
            exact hskip2]
          have hyx := jsizeL_cons y xs''
          rw [ih.2.1 (y :: xs'') (acc ++ [x]) rest F (by omega)
            (by simp) hwf.2 (by omega)]
          simp
    · -- object members
      cases fs with
      | nil => exact absurd rfl hne
      | cons f l =>
        rw [jsizeF_cons] at hN hfuel
        have hfp : 1 ≤ fuel := by have := jsize_pos f.2; omega
        obtain ⟨F, rfl⟩ : ∃ F, fuel = F + 1 := ⟨fuel - 1, by omega⟩
        simp only [jwfF, Bool.and_eq_true] at hwf
        simp only [keysNodup, Bool.and_eq_true, Bool.not_eq_true'] at hnodup
        have hin : fieldsRest (f :: l) ++ '}' :: rest
            = (escapeString f.1 ++ '"' :: (':' :: ' '
              :: (dumps f.2 ++ (sepIf l ++ (dumpsFields l ++ '}' :: rest))))) := by
          show (escapeString f.1 ++ '"' :: ':' :: ' '
              :: (dumps f.2 ++ sepIf l ++ dumpsFields l)) ++ '}' :: rest = _
          simp [List.append_assoc]
        have hkey : parseStr ((escapeString f.1 ++ '"' :: (':' :: ' '
              :: (dumps f.2 ++ (sepIf l ++ (dumpsFields l ++ '}' :: rest))))).length + 1)
            (escapeString f.1 ++ '"' :: (':' :: ' '
              :: (dumps f.2 ++ (sepIf l ++ (dumpsFields l ++ '}' :: rest))))) []
            = some (f.1, ':' :: ' ' :: (dumps f.2 ++ (sepIf l ++ (dumpsFields l ++ '}' :: rest)))) := by
          have hb := parseStr_escape f.1 []
            (':' :: ' ' :: (dumps f.2 ++ (sepIf l ++ (dumpsFields l ++ '}' :: rest))))
            ((escapeString f.1 ++ '"' :: (':' :: ' '
              :: (dumps f.2 ++ (sepIf l ++ (dumpsFields l ++ '}' :: rest))))).length + 1)
            (by
              have := escapeString_length f.1
              simp only [List.length_append, List.length_cons]
              omega)
          simpa using hb
        have hend1 : numEndOk (sepIf l ++ (dumpsFields l ++ '}' :: rest)) = true := by
          cases l <;> rfl
        have hval : parseVal F (dumps f.2 ++ (sepIf l ++ (dumpsFields l ++ '}' :: rest)))
            = some (f.2, sepIf l ++ (dumpsFields l ++ '}' :: rest)) :=
          ih.1 f.2 _ F (by have := jsize_pos f.2; omega) hwf.1 hend1 (by omega)
        have hupd : objUpd acc f.1 f.2 = acc ++ [(f.1, f.2)] :=
          objUpd_not_mem acc f.1 f.2 (hdisj f (List.mem_cons_self _ _))
        rw [hin, parseObjLoop_key F _ acc f.1 _ hkey]
        show (match parseVal F (skipJWs (' ' :: (dumps f.2
              ++ (sepIf l ++ (dumpsFields l ++ '}' :: rest))))) with
          | none => none
          | some (v, cs3) =>
            match skipJWs cs3 with
            | [] => none
            | d2 :: cs4 =>
              if d2 = '}' then some (Json.obj (objUpd acc f.1 v), cs4)
              else if d2 = ',' then
                match skipJWs cs4 with
                | [] => none
                | d3 :: cs5 =>
                  if d3 = '"' then parseObjLoop F cs5 (objUpd acc f.1 v) else none
              else none) = some (Json.obj (acc ++ f :: l), rest)
        rw [show skipJWs (' ' :: (dumps f.2 ++ (sepIf l ++ (dumpsFields l ++ '}' :: rest))))
            = dumps f.2 ++ (sepIf l ++ (dumpsFields l ++ '}' :: rest)) by
          simp only [skipJWs, List.dropWhile_cons]
          rw [if_pos (by decide)]
          exact dropWhile_dumps f.2 _]
        rw [hval]
        cases l with
        | nil =>
          show some (Json.obj (objUpd acc f.1 f.2), rest) = some (Json.obj (acc ++ [f]), rest)
          rw [hupd]
        | cons g l' =>
          have hskipg : skipJWs (' ' :: (dumpsFields (g :: l') ++ '}' :: rest))
              = '"' :: (fieldsRest (g :: l') ++ '}' :: rest) := by
            show (' ' :: (dumpsFields (g :: l') ++ '}' :: rest)).dropWhile isJsonWs = _
            rw [List.dropWhile_cons, if_pos (by decide)]
            rw [dumpsFields_cons, List.cons_append, List.dropWhile_cons, if_neg (by decide)]
          show (match skipJWs (' ' :: (dumpsFields (g :: l') ++ '}' :: rest)) with
            | [] => none
            | d3 :: cs5 =>
              if d3 = '"' then parseObjLoop F cs5 (objUpd acc f.1 f.2) else none)
              = some (Json.obj (acc ++ f :: g :: l'), rest)
          rw [hskipg]
          show parseObjLoop F (fieldsRest (g :: l') ++ '}' :: rest) (objUpd acc f.1 f.2)
              = some (Json.obj (acc ++ f :: g :: l'), rest)
          rw [jsizeF_cons] at hN hfuel
          have hdisj' : keysDisjoint (objUpd acc f.1 f.2) (g :: l') := by
            intro q hq
            rw [hupd, keyMem_append]
            have h1 : keyMem q.1 acc = false := hdisj q (List.mem_cons_of_mem _ hq)
            have h2 : f.1 ≠ q.1 := by
              have := keyMem_false_forall f.1 (g :: l') hnodup.1 q hq
              exact fun he => this he.symm
            simp [keyMem, h1, h2]
          have hgx := jsizeF_cons g l'
          rw [ih.2.2 (g :: l') (objUpd acc f.1 f.2) rest F (by omega)
            (by simp) hwf.2 hnodup.2 hdisj' (by omega)]
          rw [hupd]
          simp

lemma loads_dumps (V : Json) (hwf : jwf V = true) : loads (dumps V) = some V := by
  unfold loads
  have hlen := (jsize_le_dumps (jsize V)).1 V (le_refl _)
  have h0 : skipJWs (dumps V) = dumps V := by
    have h := skipJWs_dumps V []
    simpa using h
  rw [h0]
  have h1 : parseVal (2 * (dumps V).length + 4) (dumps V ++ []) = some (V, []) :=
    (roundtrip_triple (jsize V)).1 V [] _ (le_refl _) hwf rfl (by omega)
  rw [show dumps V ++ [] = dumps V from by simp] at h1
  rw [h1]
  rfl

def tplC7 : List Char := ("[1, 2]").toList

def vC7 : Json :=
  Json.obj [(("a").toList, Json.num 1),
    (("b").toList, Json.arr [Json.str ['x'], Json.bool true, Json.null])]

/-- C7: a template without placeholder matches assembles to itself, so
rendering equals parsing the template text directly, for every context;
consequently a template that is the serialization of a wellformed value V
(and contains no placeholder matches) renders to a value deep-equal to V
with any context. -/
theorem c7_no_placeholder_roundtrip :
    (∀ (tpl : List Char) (ctx : Json), findMatches tpl = [] →
      render_template tpl ctx = loads tpl)
      ∧ (∀ (V ctx : Json), jwf V = true → findMatches (dumps V) = [] →
        render_template (dumps V) ctx = some V) := by
  have hpart1 : ∀ (tpl : List Char) (ctx : Json), findMatches tpl = [] →
      render_template tpl ctx = loads tpl := by
    intro tpl ctx h
    unfold render_template assemble
    rw [h]
    rfl
  refine ⟨hpart1, fun V ctx hwf hfm => ?_⟩
  rw [hpart1 (dumps V) ctx hfm]
  exact loads_dumps V hwf

/-- C7 witness: both parts instantiated: a placeholder-free array literal
renders as parsed for an arbitrary context, and serializing a concrete
nested object and rendering it returns the object itself. -/
theorem c7_no_placeholder_roundtrip_witness :
    (findMatches tplC7 = [] ∧ render_template tplC7 ctxC1 = loads tplC7)
      ∧ (jwf vC7 = true ∧ findMatches (dumps vC7) = []
        ∧ render_template (dumps vC7) ctxC1 = some vC7) :=
  ⟨⟨rfl, c7_no_placeholder_roundtrip.1 tplC7 ctxC1 rfl⟩,
   ⟨rfl, rfl, c7_no_placeholder_roundtrip.2 vC7 ctxC1 rfl rfl⟩⟩

/-- C3 witness: the characterization instantiated on the end-to-end
example context and the missing dotted key x.y. -/
theorem c3_missing_characterization_witness :
    (lookupContext ctxC1 (('x' : Char) :: '.' :: 'y' :: []) = none ↔
        ∃ pre p post cur, splitDots (('x' : Char) :: '.' :: 'y' :: []) = pre ++ p :: post
          ∧ lookupGo pre ctxC1 = some cur ∧ badStep cur p)
      ∧ renderValue true none = []
      ∧ renderValue false none = ['n', 'u', 'l', 'l'] :=
  c3_missing_characterization ctxC1 (('x' : Char) :: '.' :: 'y' :: [])
